import Mathlib

/-!
Verification of the bitmap-to-layout logo generator (LogoGen.py).

The geometry synthesizer is embedded shallowly: pixel grids are functions
from coordinates to byte values, physical coordinates are exact rationals,
and each of the four passes of bitmap_to_stacked_logo is a Lean function
producing the list of rectangles the Python code emits, in emission order.
-/

namespace LogoGen

/-- A metal-like layer spec: GDS layer, datatype, and the design-rule
parameters min_width and min_area (the Python code reads them with
spec.get, defaulting to 0.0; the fields here hold the effective values). -/
structure MetalSpec where
  layer : Int
  datatype : Int
  min_width : ℚ
  min_area : ℚ
deriving Repr, DecidableEq

/-- A via layer spec: GDS layer, datatype, via width and height (code
defaults 0.1), and the optional spacing (code defaults it to the width). -/
structure ViaSpec where
  layer : Int
  datatype : Int
  width : ℚ
  height : ℚ
  spacing : Option ℚ
deriving Repr, DecidableEq

/-- Effective via spacing: via_spacing = via_spec.get("spacing", via_w). -/
def ViaSpec.spacingEff (v : ViaSpec) : ℚ :=
  v.spacing.getD v.width

/-- Layer and datatype only (used for the logo outline layer). -/
structure LayerInfo where
  layer : Int
  datatype : Int
deriving Repr, DecidableEq

/-- The binarized image: width, height, and the byte value of each pixel,
indexed as pixels[y, x]; 0 is foreground (drawn), nonzero background. -/
structure PixelGrid where
  width : Nat
  height : Nat
  px : Nat → Nat → Nat

/-- An axis-aligned rectangle tagged with layer and datatype, as handed to
gdspy.Rectangle((x0, y0), (x1, y1), layer, datatype). -/
structure Rect where
  x0 : ℚ
  y0 : ℚ
  x1 : ℚ
  y1 : ℚ
  layer : Int
  datatype : Int
deriving Repr, DecidableEq

/-- The parsed constraint file, already partitioned and sorted: metal
layers ascending by suffix, via layers ascending by suffix, the optional
logo entry, and the DMxEXCL exclusion layers ascending by suffix. -/
structure ConstraintSet where
  metals : List MetalSpec
  vias : List ViaSpec
  logo? : Option LayerInfo
  excls : List MetalSpec

/-- constraints.get("logo", \x7b"layer": 100, "datatype": 0\x7d). -/
def logoEff (c : ConstraintSet) : LayerInfo :=
  c.logo?.getD ⟨100, 0⟩

/-- Lines 64-72: the largest min_width among the metal layers that pass
the per-layer gate pixel_size >= min_width and pixel_size^2 >= min_area,
starting from 0.0. -/
def maxMinWidth (metals : List MetalSpec) (ps : ℚ) : ℚ :=
  metals.foldl
    (fun acc m =>
      if ps < m.min_width ∨ ps ^ 2 < m.min_area then acc
      else if m.min_width > acc then m.min_width else acc)
    0

/-- The square of side w centered at (cx, cy) on layer m (lines 87-92). -/
def cornerSquare (m : MetalSpec) (w cx cy : ℚ) : Rect :=
  ⟨cx - w / 2, cy - w / 2, cx + w / 2, cy + w / 2, m.layer, m.datatype⟩

/-- Lines 81-93 and 98-109: the rectangles emitted for one detected
diagonal corner, one per metal layer unless max_min_width > pixel_size
or max_min_width^2 < that layer's min_area. -/
def cornerEmit (metals : List MetalSpec) (ps cx cy : ℚ) : List Rect :=
  let maxW := maxMinWidth metals ps
  metals.filterMap
    (fun m =>
      if maxW > ps ∨ maxW ^ 2 < m.min_area then none
      else some (cornerSquare m maxW cx cy))

/-- Line 78: pattern [[0, b], [b, 0]] with b nonzero (the SE diagonal). -/
def diagSE (g : PixelGrid) (y x : Nat) : Bool :=
  (g.px y x == 0) && (g.px (y + 1) (x + 1) == 0) &&
    (g.px y (x + 1) != 0) && (g.px (y + 1) x != 0)

/-- Line 95: pattern [[b, 0], [0, b]] with b nonzero (the NE diagonal). -/
def diagNE (g : PixelGrid) (y x : Nat) : Bool :=
  (g.px y (x + 1) == 0) && (g.px (y + 1) x == 0) &&
    (g.px y x != 0) && (g.px (y + 1) (x + 1) != 0)

/-- The body of the Pass A double loop for one 2x2 window at (y, x):
lines 76-109. Both branches emit at the shared corner
((x+1) * ps, (height-(y+1)) * ps). -/
def passAWindow (g : PixelGrid) (metals : List MetalSpec) (ps : ℚ)
    (y x : Nat) : List Rect :=
  if diagSE g y x then
    cornerEmit metals ps (((x : ℚ) + 1) * ps) (((g.height : ℚ) - ((y : ℚ) + 1)) * ps)
  else if diagNE g y x then
    cornerEmit metals ps (((x : ℚ) + 1) * ps) (((g.height : ℚ) - ((y : ℚ) + 1)) * ps)
  else []

/-- Pass A, lines 74-109: scan every 2x2 window, y in range(height-1),
x in range(width-1). -/
def passA (g : PixelGrid) (metals : List MetalSpec) (ps : ℚ) : List Rect :=
  (List.range (g.height - 1)).flatMap
    (fun y => (List.range (g.width - 1)).flatMap
      (fun x => passAWindow g metals ps y x))

/-- Line 137: total_via_w = via_w + via_spacing (the horizontal pitch). -/
def viaPitchX (v : ViaSpec) : ℚ :=
  v.width + v.spacingEff

/-- Line 138: total_via_h = via_h + via_spacing (the vertical pitch). -/
def viaPitchY (v : ViaSpec) : ℚ :=
  v.height + v.spacingEff

/-- Line 139: num_x = int(pixel_size_um // total_via_w). -/
def viaNumX (v : ViaSpec) (ps : ℚ) : ℤ :=
  ⌊ps / viaPitchX v⌋

/-- Line 140: num_y = int(pixel_size_um // total_via_h). -/
def viaNumY (v : ViaSpec) (ps : ℚ) : ℤ :=
  ⌊ps / viaPitchY v⌋

/-- Line 141: arr_w = num_x * total_via_w - via_spacing if num_x > 0 else 0. -/
def viaArrW (v : ViaSpec) (ps : ℚ) : ℚ :=
  if viaNumX v ps > 0 then (viaNumX v ps : ℚ) * viaPitchX v - v.spacingEff else 0

/-- Line 142: arr_h = num_y * total_via_h - via_spacing if num_y > 0 else 0. -/
def viaArrH (v : ViaSpec) (ps : ℚ) : ℚ :=
  if viaNumY v ps > 0 then (viaNumY v ps : ℚ) * viaPitchY v - v.spacingEff else 0

/-- Lines 143-151: the via rectangle of grid cell (i, j), lower-left at
(arr_x0 + i * total_via_w, arr_y0 + j * total_via_h). -/
def mkVia (v : ViaSpec) (ps px0 py0 : ℚ) (i j : Nat) : Rect :=
  let vx0 := px0 + (ps - viaArrW v ps) / 2 + (i : ℚ) * viaPitchX v
  let vy0 := py0 + (ps - viaArrH v ps) / 2 + (j : ℚ) * viaPitchY v
  ⟨vx0, vy0, vx0 + v.width, vy0 + v.height, v.layer, v.datatype⟩

/-- Lines 130-154: the centered via array inside the pixel box whose lower
left corner is (px0, py0); a via is kept only if it does not extend past
the pixel box (line 149). -/
def viaRects (v : ViaSpec) (ps px0 py0 : ℚ) : List Rect :=
  (List.range (viaNumX v ps).toNat).flatMap
    (fun i => (List.range (viaNumY v ps).toNat).filterMap
      (fun j =>
        if (mkVia v ps px0 py0 i j).x1 ≤ px0 + ps ∧
            (mkVia v ps px0 py0 i j).y1 ≤ py0 + ps then
          some (mkVia v ps px0 py0 i j)
        else none))

/-- Lines 115-128: the full-pixel rectangle (px0, py0)-(px0+ps, py0+ps)
on a metal layer. -/
def fillRect (m : MetalSpec) (ps px0 py0 : ℚ) : Rect :=
  ⟨px0, py0, px0 + ps, py0 + ps, m.layer, m.datatype⟩

/-- Lines 119-154: the contribution of one metal layer (with the via layer
at the same ordinal, when it exists) to one foreground pixel: nothing when
the gate pixel_size >= min_width and pixel_size^2 >= min_area fails,
otherwise the full-pixel rectangle followed by the via array. -/
def metalPixelEmit (m : MetalSpec) (via? : Option ViaSpec) (ps px0 py0 : ℚ) :
    List Rect :=
  if ps < m.min_width ∨ ps ^ 2 < m.min_area then []
  else
    fillRect m ps px0 py0 ::
      (match via? with
       | some v => viaRects v ps px0 py0
       | none => [])

/-- One foreground pixel, all metal layers in order, each paired with the
via layer at its index when m_idx < len(via_layers). -/
def passBPixel (metals : List MetalSpec) (vias : List ViaSpec)
    (ps px0 py0 : ℚ) : List Rect :=
  metals.enum.flatMap (fun p => metalPixelEmit p.2 vias[p.1]? ps px0 py0)

/-- Pass B, lines 112-154: every pixel with value 0, box lower-left corner
(x * ps, (height - 1 - y) * ps). -/
def passB (g : PixelGrid) (metals : List MetalSpec) (vias : List ViaSpec)
    (ps : ℚ) : List Rect :=
  (List.range g.height).flatMap
    (fun y => (List.range g.width).flatMap
      (fun x =>
        if g.px y x == 0 then
          passBPixel metals vias ps ((x : ℚ) * ps)
            (((g.height : ℚ) - 1 - (y : ℚ)) * ps)
        else []))

/-- Pass C, lines 156-166: the single logo outline rectangle spanning
(0, 0) to (width * ps, height * ps). -/
def passC (g : PixelGrid) (logo : LayerInfo) (ps : ℚ) : List Rect :=
  [⟨0, 0, (g.width : ℚ) * ps, (g.height : ℚ) * ps, logo.layer, logo.datatype⟩]

/-- Pass D, lines 168-180: one full-extent rectangle per DMxEXCL layer
passing the same gate as Pass B, evaluated once globally. -/
def passD (g : PixelGrid) (excls : List MetalSpec) (ps : ℚ) : List Rect :=
  excls.filterMap
    (fun e =>
      if ps < e.min_width ∨ ps ^ 2 < e.min_area then none
      else some ⟨0, 0, (g.width : ℚ) * ps, (g.height : ℚ) * ps, e.layer, e.datatype⟩)

/-- The complete rectangle collection of bitmap_to_stacked_logo, in the
order the four passes add rectangles to the cell. -/
def stackedLogoRects (g : PixelGrid) (c : ConstraintSet) (ps : ℚ) : List Rect :=
  passA g c.metals ps ++ passB g c.metals c.vias ps ++
    passC g (logoEff c) ps ++ passD g c.excls ps

/-- Lines 225-226: width_lef = width * pixel_size_um * units (and the same
for the height). -/
def lefWidthLef (width : Nat) (ps units : ℚ) : ℚ :=
  (width : ℚ) * ps * units

/-- Round half to even, the rounding used by Python string formatting with
zero decimal places. -/
def roundHalfEven (q : ℚ) : ℤ :=
  if q - ⌊q⌋ < 1 / 2 then ⌊q⌋
  else if q - ⌊q⌋ > 1 / 2 then ⌊q⌋ + 1
  else if Even ⌊q⌋ then ⌊q⌋ else ⌊q⌋ + 1

/-- Line 243: the first number printed on the SIZE line,
f-string width_lef/1000 with format .0f (rounded to an integer). -/
def lefSizeShown (extent : Nat) (ps units : ℚ) : ℤ :=
  roundHalfEven (lefWidthLef extent ps units / 1000)

/-- The reflection of a rectangle through the point (cx, cy). -/
def reflectRect (cx cy : ℚ) (r : Rect) : Rect :=
  ⟨2 * cx - r.x1, 2 * cy - r.y1, 2 * cx - r.x0, 2 * cy - r.y0, r.layer, r.datatype⟩

/-- Written from the spec wording of Pass A, for comparison with the code:
the single largest minimum-width value among the metal layers that
themselves pass the per-layer pixel-size/min-area gate. -/
def largestQualifyingMinWidth (metals : List MetalSpec) (ps : ℚ) : ℚ :=
  ((metals.filter
      (fun m => decide (m.min_width ≤ ps) && decide (m.min_area ≤ ps ^ 2))).map
    MetalSpec.min_width).foldl max 0

/-- Sample metal layer: layer 1, datatype 0, min_width 0.5, min_area 0.1. -/
def sampleMetal : MetalSpec := ⟨1, 0, 1/2, 1/10⟩

/-- Sample metal layer that fails the gate at pixel size 1 (min_width 2). -/
def sampleThick : MetalSpec := ⟨2, 0, 2, 0⟩

/-- Sample via layer: layer 11, datatype 0, width and height 0.1,
spacing left to its default. -/
def sampleVia : ViaSpec := ⟨11, 0, 1/10, 1/10, none⟩

/-- The 2x2 checkerboard grid, foreground at (0,0) and (1,1). -/
def sampleGrid : PixelGrid := ⟨2, 2, fun y x => if y == x then 0 else 255⟩

/-- The 2x2 grid with every pixel foreground. -/
def sampleFull : PixelGrid := ⟨2, 2, fun _ _ => 0⟩

/-- The Pass A fold computes, from any accumulator, the fold of max over
the min_widths of the layers passing their own gate. -/
theorem foldl_maxMinWidth_eq (ps : ℚ) (l : List MetalSpec) : ∀ acc : ℚ,
    l.foldl
      (fun acc m =>
        if ps < m.min_width ∨ ps ^ 2 < m.min_area then acc
        else if m.min_width > acc then m.min_width else acc) acc =
    ((l.filter
        (fun m => decide (m.min_width ≤ ps) && decide (m.min_area ≤ ps ^ 2))).map
      MetalSpec.min_width).foldl max acc := by
  induction l with
  | nil => intro acc; rfl
  | cons m l ih =>
    intro acc
    by_cases h : ps < m.min_width ∨ ps ^ 2 < m.min_area
    · have hf : (decide (m.min_width ≤ ps) && decide (m.min_area ≤ ps ^ 2)) = false := by
        rcases h with h | h
        · simp [not_le.mpr h]
        · simp [not_le.mpr h]
      simp only [List.foldl_cons, List.filter_cons, hf]
      rw [if_pos h]
      simpa using ih acc
    · push_neg at h
      have ht : (decide (m.min_width ≤ ps) && decide (m.min_area ≤ ps ^ 2)) = true := by
        simp [h.1, h.2]
      have hstep : (if ps < m.min_width ∨ ps ^ 2 < m.min_area then acc
          else if m.min_width > acc then m.min_width else acc) = max acc m.min_width := by
        rw [if_neg (by push_neg; exact h)]
        rcases lt_or_le acc m.min_width with hlt | hle
        · rw [if_pos hlt, max_eq_right hlt.le]
        · rw [if_neg (not_lt.mpr hle), max_eq_left hle]
      simp only [List.foldl_cons, List.filter_cons, ht, List.map_cons]
      rw [hstep]
      simpa using ih (max acc m.min_width)

/-- The code maximum agrees with the spec-worded maximum. -/
theorem maxMinWidth_eq_largestQualifying (metals : List MetalSpec) (ps : ℚ) :
    maxMinWidth metals ps = largestQualifyingMinWidth metals ps := by
  unfold maxMinWidth largestQualifyingMinWidth
  exact foldl_maxMinWidth_eq ps metals 0

/-- A metal layer failing its own gate does not change the maximum. -/
theorem maxMinWidth_cons_of_fail (metals : List MetalSpec) (ps : ℚ) (m : MetalSpec)
    (h : ps < m.min_width ∨ ps ^ 2 < m.min_area) :
    maxMinWidth (m :: metals) ps = maxMinWidth metals ps := by
  unfold maxMinWidth
  simp only [List.foldl_cons]
  rw [if_pos h]

/-- The corner emission keeps exactly the layers with
max_min_width <= pixel_size and min_area <= max_min_width squared. -/
theorem cornerEmit_eq_filterMap (metals : List MetalSpec) (ps cx cy : ℚ) :
    cornerEmit metals ps cx cy =
      metals.filterMap
        (fun m =>
          if maxMinWidth metals ps ≤ ps ∧ m.min_area ≤ maxMinWidth metals ps ^ 2 then
            some (cornerSquare m (maxMinWidth metals ps) cx cy)
          else none) := by
  unfold cornerEmit
  apply List.filterMap_congr
  intro m _
  by_cases h : maxMinWidth metals ps > ps ∨ maxMinWidth metals ps ^ 2 < m.min_area
  · have hnot : ¬ (maxMinWidth metals ps ≤ ps ∧
        m.min_area ≤ maxMinWidth metals ps ^ 2) := by
      rintro ⟨h1, h2⟩
      rcases h with h | h
      · exact absurd h1 (not_le.mpr h)
      · exact absurd h2 (not_le.mpr h)
    rw [if_pos h, if_neg hnot]
  · push_neg at h
    rw [if_neg (by push_neg; exact h), if_pos ⟨h.1, h.2⟩]

/-- Every rectangle emitted for a corner is a square of side
max_min_width. -/
theorem mem_cornerEmit_side (metals : List MetalSpec) (ps cx cy : ℚ) (r : Rect)
    (hr : r ∈ cornerEmit metals ps cx cy) :
    r.x1 - r.x0 = maxMinWidth metals ps ∧ r.y1 - r.y0 = maxMinWidth metals ps := by
  unfold cornerEmit at hr
  obtain ⟨m, _, hm⟩ := List.mem_filterMap.mp hr
  split at hm
  · exact absurd hm (by simp)
  · injection hm with hm
    subst hm
    constructor <;> (simp only [cornerSquare]; ring)

/-- C1: in Pass A, the fill square side equals the single largest
min_width among the metal layers that individually pass the
pixel-size/min-area gate; a metal layer receives the square exactly when
that largest width is at most the pixel size and its square is at least
the layer's own min_area; and a metal layer failing its own gate (for
example min_width 2.0 with pixel size 1.0) contributes nothing to the
maximum. -/
theorem c1_corner_fill_square (metals : List MetalSpec) (ps cx cy : ℚ)
    (m : MetalSpec) (hm : ps < m.min_width ∨ ps ^ 2 < m.min_area) :
    maxMinWidth metals ps = largestQualifyingMinWidth metals ps ∧
    cornerEmit metals ps cx cy =
      metals.filterMap
        (fun m' =>
          if maxMinWidth metals ps ≤ ps ∧ m'.min_area ≤ maxMinWidth metals ps ^ 2 then
            some (cornerSquare m' (maxMinWidth metals ps) cx cy)
          else none) ∧
    (∀ r ∈ cornerEmit metals ps cx cy,
        r.x1 - r.x0 = maxMinWidth metals ps ∧ r.y1 - r.y0 = maxMinWidth metals ps) ∧
    maxMinWidth (m :: metals) ps = maxMinWidth metals ps :=
  ⟨maxMinWidth_eq_largestQualifying metals ps, cornerEmit_eq_filterMap metals ps cx cy,
    fun r hr => mem_cornerEmit_side metals ps cx cy r hr,
    maxMinWidth_cons_of_fail metals ps m hm⟩

/-- Witness for C1 at the spec scenario: min_width 2.0 against pixel
size 1.0 is gated out and leaves the maximum unchanged. -/
theorem c1_corner_fill_square_witness :
    ((1 : ℚ) < sampleThick.min_width ∨ (1 : ℚ) ^ 2 < sampleThick.min_area) ∧
    maxMinWidth (sampleThick :: [sampleMetal]) 1 = maxMinWidth [sampleMetal] 1 :=
  have h : (1 : ℚ) < sampleThick.min_width ∨ (1 : ℚ) ^ 2 < sampleThick.min_area :=
    Or.inl (by norm_num [sampleThick])
  ⟨h, (c1_corner_fill_square [sampleMetal] 1 0 0 sampleThick h).2.2.2⟩

/-- A 1x1 grid, fully foreground. -/
def sampleTiny : PixelGrid := ⟨1, 1, fun _ _ => 0⟩

/-- Sample constraint set: one metal layer, one via layer, no logo entry,
no exclusion layers. -/
def sampleConstraints : ConstraintSet := ⟨[sampleMetal], [sampleVia], none, []⟩

/-- When every metal layer fails its own gate the Pass A maximum stays at
its initial value 0.0. -/
theorem maxMinWidth_eq_zero (metals : List MetalSpec) (ps : ℚ)
    (h : ∀ m ∈ metals, ps < m.min_width ∨ ps ^ 2 < m.min_area) :
    maxMinWidth metals ps = 0 := by
  rw [maxMinWidth_eq_largestQualifying]
  unfold largestQualifyingMinWidth
  have hnil : metals.filter
      (fun m => decide (m.min_width ≤ ps) && decide (m.min_area ≤ ps ^ 2)) = [] := by
    rw [List.filter_eq_nil_iff]
    intro m hm
    rcases h m hm with h1 | h1 <;> simp [not_le.mpr h1]
  rw [hnil]
  rfl

/-- A window showing either diagonal pattern emits the corner fill at the
shared corner. -/
theorem passAWindow_eq_of_pattern (g : PixelGrid) (metals : List MetalSpec)
    (ps : ℚ) (y x : Nat) (h : diagSE g y x = true ∨ diagNE g y x = true) :
    passAWindow g metals ps y x =
      cornerEmit metals ps (((x : ℚ) + 1) * ps)
        (((g.height : ℚ) - ((y : ℚ) + 1)) * ps) := by
  unfold passAWindow
  rcases h with h | h
  · rw [if_pos h]
  · by_cases h1 : diagSE g y x
    · rw [if_pos h1]
    · rw [if_neg (by simp [h1]), if_pos h]

/-- Anything emitted for an in-range window is in the Pass A output. -/
theorem mem_passA_of_window (g : PixelGrid) (metals : List MetalSpec) (ps : ℚ)
    (y x : Nat) (r : Rect) (hy : y < g.height - 1) (hx : x < g.width - 1)
    (hr : r ∈ passAWindow g metals ps y x) : r ∈ passA g metals ps := by
  unfold passA
  rw [List.mem_flatMap]
  exact ⟨y, List.mem_range.mpr hy, List.mem_flatMap.mpr ⟨x, List.mem_range.mpr hx, hr⟩⟩

/-- With a zero maximum and a zero min_area, the corner emission contains
the degenerate square at the corner point itself. -/
theorem mem_cornerEmit_degenerate (metals : List MetalSpec) (ps cx cy : ℚ)
    (m : MetalSpec) (hmax : maxMinWidth metals ps = 0) (hps : 0 ≤ ps)
    (hm : m ∈ metals) (ha : m.min_area = 0) :
    (⟨cx, cy, cx, cy, m.layer, m.datatype⟩ : Rect) ∈ cornerEmit metals ps cx cy := by
  simp only [cornerEmit]
  rw [List.mem_filterMap]
  refine ⟨m, hm, ?_⟩
  rw [hmax, ha]
  rw [if_neg (by push_neg; constructor <;> [linarith; norm_num])]
  simp [cornerSquare]

/-- C10: when no metal layer passes the pixel-size/min-area gate the
largest qualifying min_width used by Pass A is 0.0, and every metal layer
whose min_area is 0 then receives a degenerate zero-area square centered
on the shared corner at every detected diagonal pattern. -/
theorem c10_degenerate_corner_squares (metals : List MetalSpec) (ps : ℚ)
    (hfail : ∀ m ∈ metals, ps < m.min_width ∨ ps ^ 2 < m.min_area)
    (hps : 0 ≤ ps) :
    maxMinWidth metals ps = 0 ∧
    ∀ m ∈ metals, m.min_area = 0 → ∀ (g : PixelGrid) (y x : Nat),
      y < g.height - 1 → x < g.width - 1 →
      (diagSE g y x = true ∨ diagNE g y x = true) →
      (⟨((x : ℚ) + 1) * ps, ((g.height : ℚ) - ((y : ℚ) + 1)) * ps,
        ((x : ℚ) + 1) * ps, ((g.height : ℚ) - ((y : ℚ) + 1)) * ps,
        m.layer, m.datatype⟩ : Rect) ∈ passA g metals ps := by
  have hmax := maxMinWidth_eq_zero metals ps hfail
  refine ⟨hmax, ?_⟩
  intro m hm ha g y x hy hx hpat
  apply mem_passA_of_window g metals ps y x _ hy hx
  rw [passAWindow_eq_of_pattern g metals ps y x hpat]
  exact mem_cornerEmit_degenerate metals ps _ _ m hmax hps hm ha

/-- Witness for C10: a single metal layer with min_width 2 and min_area 0
at pixel size 1, on the checkerboard grid. -/
theorem c10_degenerate_corner_squares_witness :
    (∀ m ∈ [sampleThick], (1 : ℚ) < m.min_width ∨ (1 : ℚ) ^ 2 < m.min_area) ∧
    (⟨((0 : ℚ) + 1) * 1, ((sampleGrid.height : ℚ) - ((0 : ℚ) + 1)) * 1,
      ((0 : ℚ) + 1) * 1, ((sampleGrid.height : ℚ) - ((0 : ℚ) + 1)) * 1,
      sampleThick.layer, sampleThick.datatype⟩ : Rect) ∈
        passA sampleGrid [sampleThick] 1 :=
  have hfail : ∀ m ∈ [sampleThick], (1 : ℚ) < m.min_width ∨ (1 : ℚ) ^ 2 < m.min_area := by
    intro m hm
    rw [List.mem_singleton] at hm
    subst hm
    exact Or.inl (by norm_num [sampleThick])
  ⟨hfail,
    (c10_degenerate_corner_squares [sampleThick] 1 hfail (by norm_num)).2
      sampleThick (List.mem_singleton.mpr rfl) rfl sampleGrid 0 0
      (by norm_num [sampleGrid]) (by norm_num [sampleGrid]) (Or.inl rfl)⟩

/-- C9: a grid with width or height at most 1 makes Pass A empty, and the
full synthesis result is just the other three passes. -/
theorem c9_degenerate_grid (g : PixelGrid) (c : ConstraintSet) (ps : ℚ)
    (h : g.width ≤ 1 ∨ g.height ≤ 1) :
    passA g c.metals ps = [] ∧
    stackedLogoRects g c ps =
      passB g c.metals c.vias ps ++ passC g (logoEff c) ps ++
        passD g c.excls ps := by
  have hA : passA g c.metals ps = [] := by
    unfold passA
    rcases h with h | h
    · have hw : g.width - 1 = 0 := Nat.sub_eq_zero_of_le h
      simp [hw]
    · have hh : g.height - 1 = 0 := Nat.sub_eq_zero_of_le h
      simp [hh]
  exact ⟨hA, by unfold stackedLogoRects; rw [hA, List.nil_append]⟩

/-- Witness for C9 on the 1x1 grid. -/
theorem c9_degenerate_grid_witness :
    (sampleTiny.width ≤ 1 ∨ sampleTiny.height ≤ 1) ∧
    passA sampleTiny sampleConstraints.metals 1 = [] :=
  ⟨Or.inl (by norm_num [sampleTiny]),
    (c9_degenerate_grid sampleTiny sampleConstraints 1
      (Or.inl (by norm_num [sampleTiny]))).1⟩

/-- Every rectangle in a via array carries the via layer and datatype. -/
theorem mem_viaRects_tag (v : ViaSpec) (ps px0 py0 : ℚ) (r : Rect)
    (hr : r ∈ viaRects v ps px0 py0) :
    r.layer = v.layer ∧ r.datatype = v.datatype := by
  unfold viaRects at hr
  obtain ⟨i, _, hi⟩ := List.mem_flatMap.mp hr
  obtain ⟨j, _, hj⟩ := List.mem_filterMap.mp hi
  split at hj
  · injection hj with hj
    subst hj
    exact ⟨rfl, rfl⟩
  · exact absurd hj (by simp)

/-- C2: a foreground pixel and a metal layer passing the
pixel-size/min-area gate yield exactly one full-pixel rectangle on that
layer, spanning the pixel physical box with area pixel_size squared,
followed only by the via array; a pixel/layer pair failing the gate
yields no rectangle and no via array. -/
theorem c2_pass_b_pixel_gate (m : MetalSpec) (via? : Option ViaSpec)
    (ps px0 py0 : ℚ) :
    (m.min_width ≤ ps ∧ m.min_area ≤ ps ^ 2 →
      metalPixelEmit m via? ps px0 py0 =
        fillRect m ps px0 py0 ::
          (match via? with
           | some v => viaRects v ps px0 py0
           | none => []) ∧
      ((fillRect m ps px0 py0).x1 - (fillRect m ps px0 py0).x0) *
        ((fillRect m ps px0 py0).y1 - (fillRect m ps px0 py0).y0) = ps ^ 2) ∧
    ((∀ v, via? = some v → v.layer ≠ m.layer) →
      m.min_width ≤ ps → m.min_area ≤ ps ^ 2 →
      (metalPixelEmit m via? ps px0 py0).count (fillRect m ps px0 py0) = 1) ∧
    (ps < m.min_width ∨ ps ^ 2 < m.min_area →
      metalPixelEmit m via? ps px0 py0 = []) := by
  refine ⟨?_, ?_, ?_⟩
  · rintro ⟨h1, h2⟩
    constructor
    · unfold metalPixelEmit
      rw [if_neg (by push_neg; exact ⟨h1, h2⟩)]
    · simp only [fillRect]
      ring
  · intro hv h1 h2
    unfold metalPixelEmit
    rw [if_neg (by push_neg; exact ⟨h1, h2⟩)]
    cases via? with
    | none =>
        simp
    | some v =>
        rw [List.count_cons_self]
        have hzero : (viaRects v ps px0 py0).count (fillRect m ps px0 py0) = 0 := by
          rw [List.count_eq_zero]
          intro hmem
          have htag := (mem_viaRects_tag v ps px0 py0 _ hmem).1
          exact hv v rfl (by simpa [fillRect] using htag.symm)
        rw [hzero]
  · intro h
    unfold metalPixelEmit
    rw [if_pos h]

/-- Witness for C2: the sample metal layer and via layer at pixel size 1
give exactly one full-pixel rectangle on the metal layer. -/
theorem c2_pass_b_pixel_gate_witness :
    (sampleMetal.min_width ≤ (1 : ℚ) ∧ sampleMetal.min_area ≤ (1 : ℚ) ^ 2) ∧
    (∀ v, (some sampleVia : Option ViaSpec) = some v → v.layer ≠ sampleMetal.layer) ∧
    (metalPixelEmit sampleMetal (some sampleVia) 1 0 0).count
      (fillRect sampleMetal 1 0 0) = 1 :=
  have hw : sampleMetal.min_width ≤ (1 : ℚ) := by norm_num [sampleMetal]
  have ha : sampleMetal.min_area ≤ (1 : ℚ) ^ 2 := by norm_num [sampleMetal]
  have hv : ∀ v, (some sampleVia : Option ViaSpec) = some v → v.layer ≠ sampleMetal.layer := by
    intro v h
    injection h with h
    subst h
    norm_num [sampleVia, sampleMetal]
  ⟨⟨hw, ha⟩, hv,
    (c2_pass_b_pixel_gate sampleMetal (some sampleVia) 1 0 0).2.1 hv hw ha⟩

/-- Rounding half-to-even leaves an integer unchanged. -/
theorem roundHalfEven_intCast (a : ℤ) : roundHalfEven (a : ℚ) = a := by
  unfold roundHalfEven
  rw [Int.floor_intCast, sub_self, if_pos (by norm_num)]

/-- C4 counterexample: with unit scale 2000 and a 1 x 1 grid at pixel
size 1, the SIZE line shows 2, not the claimed footprint
width x pixel_size = 1. -/
theorem c4_size_line_counterexample :
    lefSizeShown 1 1 2000 = 2 ∧ (1 : ℚ) * 1 ≠ (2 : ℚ) := by
  constructor
  · unfold lefSizeShown lefWidthLef
    have h : ((1 : Nat) : ℚ) * 1 * 2000 / 1000 = ((2 : ℤ) : ℚ) := by norm_num
    rw [h, roundHalfEven_intCast]
  · norm_num

/-- C4 (amended): the SIZE line shows the footprint divided by the
constant 1000 (not by the unit scale) and rounded half-to-even; with the
default unit scale 1000 and an integer-valued width x pixel_size and
height x pixel_size it reports exactly those products. -/
theorem c4_size_line_amended (width height : Nat) (ps units : ℚ) (a b : ℤ)
    (hu : units = 1000) (ha : (width : ℚ) * ps = a) (hb : (height : ℚ) * ps = b) :
    lefSizeShown width ps units = a ∧ lefSizeShown height ps units = b := by
  subst hu
  constructor
  · unfold lefSizeShown lefWidthLef
    have h : (width : ℚ) * ps * 1000 / 1000 = (a : ℚ) := by
      rw [← ha]; ring
    rw [h, roundHalfEven_intCast]
  · unfold lefSizeShown lefWidthLef
    have h : (height : ℚ) * ps * 1000 / 1000 = (b : ℚ) := by
      rw [← hb]; ring
    rw [h, roundHalfEven_intCast]

/-- Witness for the amended C4 on a 2 x 3 grid at pixel size 1 and the
default unit scale. -/
theorem c4_size_line_amended_witness :
    ((2 : Nat) : ℚ) * 1 = ((2 : ℤ) : ℚ) ∧ ((3 : Nat) : ℚ) * 1 = ((3 : ℤ) : ℚ) ∧
    lefSizeShown 2 1 1000 = 2 ∧ lefSizeShown 3 1 1000 = 3 :=
  have ha : ((2 : Nat) : ℚ) * 1 = ((2 : ℤ) : ℚ) := by norm_num
  have hb : ((3 : Nat) : ℚ) * 1 = ((3 : ℤ) : ℚ) := by norm_num
  ⟨ha, hb, (c4_size_line_amended 2 3 1 1000 2 3 rfl ha hb).1,
    (c4_size_line_amended 2 3 1 1000 2 3 rfl ha hb).2⟩

/-- The SE pattern test is the stated pixel-value condition. -/
theorem diagSE_iff (g : PixelGrid) (y x : Nat) :
    diagSE g y x = true ↔
      (g.px y x = 0 ∧ g.px (y + 1) (x + 1) = 0 ∧
        g.px y (x + 1) ≠ 0 ∧ g.px (y + 1) x ≠ 0) := by
  simp [diagSE, and_assoc]

/-- The NE pattern test is the stated pixel-value condition. -/
theorem diagNE_iff (g : PixelGrid) (y x : Nat) :
    diagNE g y x = true ↔
      (g.px y (x + 1) = 0 ∧ g.px (y + 1) x = 0 ∧
        g.px y x ≠ 0 ∧ g.px (y + 1) (x + 1) ≠ 0) := by
  simp [diagNE, and_assoc]

/-- When some metal layer passes the Pass A gate, a detected corner
always emits at least one rectangle. -/
theorem cornerEmit_ne_nil (metals : List MetalSpec) (ps cx cy : ℚ)
    (hq : ∃ m ∈ metals, maxMinWidth metals ps ≤ ps ∧
      m.min_area ≤ maxMinWidth metals ps ^ 2) :
    cornerEmit metals ps cx cy ≠ [] := by
  obtain ⟨m, hm, h1, h2⟩ := hq
  have hmem : cornerSquare m (maxMinWidth metals ps) cx cy ∈
      cornerEmit metals ps cx cy := by
    rw [cornerEmit_eq_filterMap]
    exact List.mem_filterMap.mpr ⟨m, hm, if_pos ⟨h1, h2⟩⟩
  exact List.ne_nil_of_mem hmem

/-- C6: provided some metal layer passes the Pass A gate, a 2x2 window
emits corner-fill geometry exactly when one diagonal pair is foreground
and the other two pixels are background; a uniform window, all foreground
or all background, emits nothing. -/
theorem c6_diagonal_trigger (g : PixelGrid) (metals : List MetalSpec)
    (ps : ℚ) (y x : Nat)
    (hq : ∃ m ∈ metals, maxMinWidth metals ps ≤ ps ∧
      m.min_area ≤ maxMinWidth metals ps ^ 2) :
    (passAWindow g metals ps y x ≠ [] ↔
      ((g.px y x = 0 ∧ g.px (y + 1) (x + 1) = 0 ∧
          g.px y (x + 1) ≠ 0 ∧ g.px (y + 1) x ≠ 0) ∨
        (g.px y (x + 1) = 0 ∧ g.px (y + 1) x = 0 ∧
          g.px y x ≠ 0 ∧ g.px (y + 1) (x + 1) ≠ 0))) ∧
    ((g.px y x = 0 ∧ g.px (y + 1) (x + 1) = 0 ∧
        g.px y (x + 1) = 0 ∧ g.px (y + 1) x = 0) →
      passAWindow g metals ps y x = []) ∧
    ((g.px y x ≠ 0 ∧ g.px (y + 1) (x + 1) ≠ 0 ∧
        g.px y (x + 1) ≠ 0 ∧ g.px (y + 1) x ≠ 0) →
      passAWindow g metals ps y x = []) := by
  have hiff : passAWindow g metals ps y x ≠ [] ↔
      (diagSE g y x = true ∨ diagNE g y x = true) := by
    unfold passAWindow
    by_cases h1 : diagSE g y x
    · simp [h1, cornerEmit_ne_nil metals ps _ _ hq]
    · by_cases h2 : diagNE g y x
      · simp [h1, h2, cornerEmit_ne_nil metals ps _ _ hq]
      · simp [h1, h2]
  refine ⟨by rw [hiff, diagSE_iff, diagNE_iff], ?_, ?_⟩
  · rintro ⟨ha, hb, hc, hd⟩
    by_contra hne
    rcases hiff.mp hne with h | h
    · exact ((diagSE_iff g y x).mp h).2.2.1 hc
    · exact ((diagNE_iff g y x).mp h).2.2.1 ha
  · rintro ⟨ha, hb, hc, hd⟩
    by_contra hne
    rcases hiff.mp hne with h | h
    · exact ha ((diagSE_iff g y x).mp h).1
    · exact hc ((diagNE_iff g y x).mp h).1

/-- Witness for C6: the all-foreground 2x2 grid emits no Pass A geometry
even though the sample metal layer qualifies. -/
theorem c6_diagonal_trigger_witness :
    (∃ m ∈ [sampleMetal], maxMinWidth [sampleMetal] 1 ≤ 1 ∧
      m.min_area ≤ maxMinWidth [sampleMetal] 1 ^ 2) ∧
    passAWindow sampleFull [sampleMetal] 1 0 0 = [] :=
  have hmax : maxMinWidth [sampleMetal] 1 = 1 / 2 := by
    norm_num [maxMinWidth, sampleMetal]
  have hq : ∃ m ∈ [sampleMetal], maxMinWidth [sampleMetal] 1 ≤ 1 ∧
      m.min_area ≤ maxMinWidth [sampleMetal] 1 ^ 2 :=
    ⟨sampleMetal, List.mem_singleton.mpr rfl, by rw [hmax]; norm_num,
      by rw [hmax]; norm_num [sampleMetal]⟩
  ⟨hq, (c6_diagonal_trigger sampleFull [sampleMetal] 1 0 0 hq).2.1
    ⟨rfl, rfl, rfl, rfl⟩⟩

/-- Every Pass A rectangle carries some metal layer tag. -/
theorem mem_cornerEmit_tag (metals : List MetalSpec) (ps cx cy : ℚ) (r : Rect)
    (hr : r ∈ cornerEmit metals ps cx cy) :
    ∃ m ∈ metals, r.layer = m.layer ∧ r.datatype = m.datatype := by
  unfold cornerEmit at hr
  obtain ⟨m, hm, h⟩ := List.mem_filterMap.mp hr
  split at h
  · exact absurd h (by simp)
  · injection h with h
    subst h
    exact ⟨m, hm, rfl, rfl⟩

/-- Every Pass A rectangle carries some metal layer tag. -/
theorem mem_passA_tag (g : PixelGrid) (metals : List MetalSpec) (ps : ℚ)
    (r : Rect) (hr : r ∈ passA g metals ps) :
    ∃ m ∈ metals, r.layer = m.layer ∧ r.datatype = m.datatype := by
  unfold passA at hr
  obtain ⟨y, _, hy⟩ := List.mem_flatMap.mp hr
  obtain ⟨x, _, hx⟩ := List.mem_flatMap.mp hy
  unfold passAWindow at hx
  split at hx
  · exact mem_cornerEmit_tag metals ps _ _ r hx
  · split at hx
    · exact mem_cornerEmit_tag metals ps _ _ r hx
    · exact absurd hx (by simp)

/-- Every Pass B rectangle carries a metal layer tag or a via layer tag. -/
theorem mem_passBPixel_tag (metals : List MetalSpec) (vias : List ViaSpec)
    (ps px0 py0 : ℚ) (r : Rect) (hr : r ∈ passBPixel metals vias ps px0 py0) :
    (∃ m ∈ metals, r.layer = m.layer ∧ r.datatype = m.datatype) ∨
      (∃ v ∈ vias, r.layer = v.layer ∧ r.datatype = v.datatype) := by
  unfold passBPixel at hr
  obtain ⟨p, hp, hmem⟩ := List.mem_flatMap.mp hr
  obtain ⟨i, m⟩ := p
  have hpm : m ∈ metals := by
    rw [List.mem_enum_iff_getElem?] at hp
    exact List.getElem?_mem hp
  unfold metalPixelEmit at hmem
  split at hmem
  · exact absurd hmem (by simp)
  · rcases List.mem_cons.mp hmem with h | h
    · exact Or.inl ⟨m, hpm, by rw [h]; exact ⟨rfl, rfl⟩⟩
    · cases hvia : vias[i]? with
      | none => rw [hvia] at h; exact absurd h (by simp)
      | some v =>
          rw [hvia] at h
          exact Or.inr ⟨v, List.getElem?_mem hvia, mem_viaRects_tag v ps px0 py0 r h⟩

/-- Every Pass B rectangle carries a metal layer tag or a via layer tag. -/
theorem mem_passB_tag (g : PixelGrid) (metals : List MetalSpec)
    (vias : List ViaSpec) (ps : ℚ) (r : Rect)
    (hr : r ∈ passB g metals vias ps) :
    (∃ m ∈ metals, r.layer = m.layer ∧ r.datatype = m.datatype) ∨
      (∃ v ∈ vias, r.layer = v.layer ∧ r.datatype = v.datatype) := by
  unfold passB at hr
  obtain ⟨y, _, hy⟩ := List.mem_flatMap.mp hr
  obtain ⟨x, _, hx⟩ := List.mem_flatMap.mp hy
  split at hx
  · exact mem_passBPixel_tag metals vias ps _ _ r hx
  · exact absurd hx (by simp)

/-- Every Pass D rectangle carries some exclusion layer tag. -/
theorem mem_passD_tag (g : PixelGrid) (excls : List MetalSpec) (ps : ℚ)
    (r : Rect) (hr : r ∈ passD g excls ps) :
    ∃ e ∈ excls, r.layer = e.layer ∧ r.datatype = e.datatype := by
  unfold passD at hr
  obtain ⟨e, he, h⟩ := List.mem_filterMap.mp hr
  split at h
  · exact absurd h (by simp)
  · injection h with h
    subst h
    exact ⟨e, he, rfl, rfl⟩

/-- C7: when the logo layer/datatype pair is distinct from every metal,
via and exclusion pair, the synthesized collection holds exactly one
rectangle on the logo layer, spanning (0, 0) to
(width x pixel_size, height x pixel_size); a missing logo entry defaults
to layer 100, datatype 0. -/
theorem c7_logo_outline (g : PixelGrid) (c : ConstraintSet) (ps : ℚ)
    (hm : ∀ m ∈ c.metals,
      m.layer ≠ (logoEff c).layer ∨ m.datatype ≠ (logoEff c).datatype)
    (hv : ∀ v ∈ c.vias,
      v.layer ≠ (logoEff c).layer ∨ v.datatype ≠ (logoEff c).datatype)
    (he : ∀ e ∈ c.excls,
      e.layer ≠ (logoEff c).layer ∨ e.datatype ≠ (logoEff c).datatype) :
    (stackedLogoRects g c ps).filter
        (fun r => r.layer == (logoEff c).layer &&
          r.datatype == (logoEff c).datatype) =
      [⟨0, 0, (g.width : ℚ) * ps, (g.height : ℚ) * ps,
        (logoEff c).layer, (logoEff c).datatype⟩] ∧
    (c.logo? = none → logoEff c = ⟨100, 0⟩) := by
  constructor
  · unfold stackedLogoRects
    rw [List.filter_append, List.filter_append, List.filter_append]
    have hA : (passA g c.metals ps).filter
        (fun r => r.layer == (logoEff c).layer &&
          r.datatype == (logoEff c).datatype) = [] := by
      rw [List.filter_eq_nil_iff]
      intro r hr
      obtain ⟨m, hmem, h1, h2⟩ := mem_passA_tag g c.metals ps r hr
      simp only [Bool.and_eq_true, beq_iff_eq, not_and]
      intro e1
      rcases hm m hmem with h | h
      · exact absurd (by rw [← h1]; exact e1) h
      · intro e2; exact absurd (by rw [← h2]; exact e2) h
    have hB : (passB g c.metals c.vias ps).filter
        (fun r => r.layer == (logoEff c).layer &&
          r.datatype == (logoEff c).datatype) = [] := by
      rw [List.filter_eq_nil_iff]
      intro r hr
      simp only [Bool.and_eq_true, beq_iff_eq, not_and]
      intro e1
      rcases mem_passB_tag g c.metals c.vias ps r hr with ⟨m, hmem, h1, h2⟩ | ⟨v, hmem, h1, h2⟩
      · rcases hm m hmem with h | h
        · exact absurd (by rw [← h1]; exact e1) h
        · intro e2; exact absurd (by rw [← h2]; exact e2) h
      · rcases hv v hmem with h | h
        · exact absurd (by rw [← h1]; exact e1) h
        · intro e2; exact absurd (by rw [← h2]; exact e2) h
    have hD : (passD g c.excls ps).filter
        (fun r => r.layer == (logoEff c).layer &&
          r.datatype == (logoEff c).datatype) = [] := by
      rw [List.filter_eq_nil_iff]
      intro r hr
      obtain ⟨e, hmem, h1, h2⟩ := mem_passD_tag g c.excls ps r hr
      simp only [Bool.and_eq_true, beq_iff_eq, not_and]
      intro e1
      rcases he e hmem with h | h
      · exact absurd (by rw [← h1]; exact e1) h
      · intro e2; exact absurd (by rw [← h2]; exact e2) h
    rw [hA, hB, hD]
    simp [passC]
  · intro h
    unfold logoEff
    rw [h]
    rfl

/-- Witness for C7 on the checkerboard grid with the sample constraint
set, whose missing logo entry defaults to layer 100, datatype 0. -/
theorem c7_logo_outline_witness :
    (∀ m ∈ sampleConstraints.metals,
      m.layer ≠ (logoEff sampleConstraints).layer ∨
        m.datatype ≠ (logoEff sampleConstraints).datatype) ∧
    (stackedLogoRects sampleGrid sampleConstraints 1).filter
        (fun r => r.layer == (logoEff sampleConstraints).layer &&
          r.datatype == (logoEff sampleConstraints).datatype) =
      [⟨0, 0, (sampleGrid.width : ℚ) * 1, (sampleGrid.height : ℚ) * 1,
        (logoEff sampleConstraints).layer, (logoEff sampleConstraints).datatype⟩] :=
  have hm : ∀ m ∈ sampleConstraints.metals,
      m.layer ≠ (logoEff sampleConstraints).layer ∨
        m.datatype ≠ (logoEff sampleConstraints).datatype := by
    intro m hmem
    rw [show sampleConstraints.metals = [sampleMetal] from rfl,
      List.mem_singleton] at hmem
    subst hmem
    exact Or.inl (by norm_num [sampleMetal, logoEff, sampleConstraints])
  have hv : ∀ v ∈ sampleConstraints.vias,
      v.layer ≠ (logoEff sampleConstraints).layer ∨
        v.datatype ≠ (logoEff sampleConstraints).datatype := by
    intro v hmem
    rw [show sampleConstraints.vias = [sampleVia] from rfl,
      List.mem_singleton] at hmem
    subst hmem
    exact Or.inl (by norm_num [sampleVia, logoEff, sampleConstraints])
  have he : ∀ e ∈ sampleConstraints.excls,
      e.layer ≠ (logoEff sampleConstraints).layer ∨
        e.datatype ≠ (logoEff sampleConstraints).datatype := by
    intro e hmem
    exact absurd hmem (by simp [sampleConstraints])
  ⟨hm, (c7_logo_outline sampleGrid sampleConstraints 1 hm hv he).1⟩

/-- A gate-passing metal layer puts its full-pixel rectangle into the
per-pixel emission. -/
theorem mem_passBPixel_fill (metals : List MetalSpec) (vias : List ViaSpec)
    (ps px0 py0 : ℚ) (m : MetalSpec) (hm : m ∈ metals)
    (h1 : m.min_width ≤ ps) (h2 : m.min_area ≤ ps ^ 2) :
    fillRect m ps px0 py0 ∈ passBPixel metals vias ps px0 py0 := by
  unfold passBPixel
  rw [List.mem_flatMap]
  obtain ⟨i, hi, hEq⟩ := List.mem_iff_getElem.mp hm
  refine ⟨(i, m), ?_, ?_⟩
  · rw [List.mem_enum_iff_getElem?, List.getElem?_eq_getElem hi, hEq]
  · unfold metalPixelEmit
    rw [if_neg (by push_neg; exact ⟨h1, h2⟩)]
    exact List.mem_cons_self _ _

/-- A foreground pixel and a gate-passing metal layer put the pixel box
rectangle into the Pass B output. -/
theorem mem_passB_fill (g : PixelGrid) (metals : List MetalSpec)
    (vias : List ViaSpec) (ps : ℚ) (x y : Nat) (m : MetalSpec)
    (hx : x < g.width) (hy : y < g.height) (hfg : g.px y x = 0)
    (hm : m ∈ metals) (h1 : m.min_width ≤ ps) (h2 : m.min_area ≤ ps ^ 2) :
    fillRect m ps ((x : ℚ) * ps) (((g.height : ℚ) - 1 - (y : ℚ)) * ps) ∈
      passB g metals vias ps := by
  unfold passB
  rw [List.mem_flatMap]
  refine ⟨y, List.mem_range.mpr hy, ?_⟩
  rw [List.mem_flatMap]
  refine ⟨x, List.mem_range.mpr hx, ?_⟩
  rw [if_pos (by simp [hfg])]
  exact mem_passBPixel_fill metals vias ps _ _ m hm h1 h2

/-- C8: every Pass B pixel box has physical
y0 = (height - 1 - pixel_y) * pixel_size and is emitted for gate-passing
layers; on a height-1 grid pixel (0,0) maps to (0,0)-(ps,ps); on a taller
grid, row 0 boxes sit strictly above every other row's boxes. -/
theorem c8_y_flip (g : PixelGrid) (metals : List MetalSpec)
    (vias : List ViaSpec) (ps : ℚ) (hps : 0 < ps) :
    (∀ (x y : Nat) (m : MetalSpec), x < g.width → y < g.height →
      g.px y x = 0 → m ∈ metals → m.min_width ≤ ps → m.min_area ≤ ps ^ 2 →
      (fillRect m ps ((x : ℚ) * ps) (((g.height : ℚ) - 1 - (y : ℚ)) * ps)).y0 =
          ((g.height : ℚ) - 1 - (y : ℚ)) * ps ∧
        fillRect m ps ((x : ℚ) * ps) (((g.height : ℚ) - 1 - (y : ℚ)) * ps) ∈
          passB g metals vias ps) ∧
    (g.height = 1 → ∀ m : MetalSpec,
      fillRect m ps ((0 : ℚ) * ps) (((g.height : ℚ) - 1 - (0 : ℚ)) * ps) =
        ⟨0, 0, ps, ps, m.layer, m.datatype⟩) ∧
    (1 < g.height → ∀ (x' y' : Nat) (m : MetalSpec), 0 < y' →
      (fillRect m ps ((x' : ℚ) * ps) (((g.height : ℚ) - 1 - (y' : ℚ)) * ps)).y0 <
        (fillRect m ps ((x' : ℚ) * ps) (((g.height : ℚ) - 1 - (0 : ℚ)) * ps)).y0) := by
  refine ⟨?_, ?_, ?_⟩
  · intro x y m hx hy hfg hm h1 h2
    exact ⟨rfl, mem_passB_fill g metals vias ps x y m hx hy hfg hm h1 h2⟩
  · intro hh m
    rw [hh]
    simp only [fillRect, Rect.mk.injEq]
    norm_num
  · intro _ x' y' m hy'
    simp only [fillRect]
    have hyq : (0 : ℚ) < (y' : ℚ) := by exact_mod_cast hy'
    have hlt : (g.height : ℚ) - 1 - (y' : ℚ) < (g.height : ℚ) - 1 - (0 : ℚ) := by
      linarith
    exact mul_lt_mul_of_pos_right hlt hps

/-- Witness for C8: on the checkerboard grid, pixel (0,0) at height 2 is
emitted with its box in Pass B. -/
theorem c8_y_flip_witness :
    ((0 : ℚ) < 1) ∧
    fillRect sampleMetal 1 (((0 : Nat) : ℚ) * 1)
        (((sampleGrid.height : ℚ) - 1 - ((0 : Nat) : ℚ)) * 1) ∈
      passB sampleGrid [sampleMetal] [] 1 :=
  ⟨by norm_num,
    ((c8_y_flip sampleGrid [sampleMetal] [] 1 (by norm_num)).1 0 0 sampleMetal
      (by norm_num [sampleGrid]) (by norm_num [sampleGrid]) rfl
      (List.mem_singleton.mpr rfl) (by norm_num [sampleMetal])
      (by norm_num [sampleMetal])).2⟩

/-- flatMap respects pointwise equality on the list members. -/
theorem flatMap_congr_mem {α β : Type} (l : List α) (f g : α → List β)
    (h : ∀ a ∈ l, f a = g a) : l.flatMap f = l.flatMap g := by
  induction l with
  | nil => rfl
  | cons a l ih =>
      simp only [List.flatMap_cons, h a (List.mem_cons_self a l)]
      rw [ih (fun b hb => h b (List.mem_cons_of_mem a hb))]

/-- num_x pitches never exceed the pixel size. -/
theorem viaNumX_mul_le (v : ViaSpec) (ps : ℚ) (htw : 0 < viaPitchX v) :
    (viaNumX v ps : ℚ) * viaPitchX v ≤ ps := by
  have h1 : (viaNumX v ps : ℚ) ≤ ps / viaPitchX v := Int.floor_le _
  calc (viaNumX v ps : ℚ) * viaPitchX v
      ≤ ps / viaPitchX v * viaPitchX v := mul_le_mul_of_nonneg_right h1 htw.le
    _ = ps := div_mul_cancel₀ ps (ne_of_gt htw)

/-- num_y pitches never exceed the pixel size. -/
theorem viaNumY_mul_le (v : ViaSpec) (ps : ℚ) (hth : 0 < viaPitchY v) :
    (viaNumY v ps : ℚ) * viaPitchY v ≤ ps := by
  have h1 : (viaNumY v ps : ℚ) ≤ ps / viaPitchY v := Int.floor_le _
  calc (viaNumY v ps : ℚ) * viaPitchY v
      ≤ ps / viaPitchY v * viaPitchY v := mul_le_mul_of_nonneg_right h1 hth.le
    _ = ps := div_mul_cancel₀ ps (ne_of_gt hth)

/-- With nonnegative spacing, no via of the array sticks out of the pixel
box to the right. -/
theorem mkVia_x1_le (v : ViaSpec) (ps px0 py0 : ℚ) (i j : Nat)
    (hs : 0 ≤ v.spacingEff) (htw : 0 < viaPitchX v)
    (hi : i < (viaNumX v ps).toNat) :
    (mkVia v ps px0 py0 i j).x1 ≤ px0 + ps := by
  have hn : 0 < viaNumX v ps := by omega
  have hiz : (i : ℤ) + 1 ≤ viaNumX v ps := by omega
  have hiq : (i : ℚ) + 1 ≤ (viaNumX v ps : ℚ) := by exact_mod_cast hiz
  have hA : (viaNumX v ps : ℚ) * viaPitchX v ≤ ps := viaNumX_mul_le v ps htw
  have harr : viaArrW v ps = (viaNumX v ps : ℚ) * viaPitchX v - v.spacingEff := by
    unfold viaArrW
    rw [if_pos hn]
  have hmul : (i : ℚ) * viaPitchX v ≤ ((viaNumX v ps : ℚ) - 1) * viaPitchX v :=
    mul_le_mul_of_nonneg_right (by linarith) htw.le
  have htwdef : viaPitchX v = v.width + v.spacingEff := rfl
  show px0 + (ps - viaArrW v ps) / 2 + (i : ℚ) * viaPitchX v + v.width ≤ px0 + ps
  rw [harr]
  linarith [hmul, hA, hs]

/-- With nonnegative spacing, no via of the array sticks out of the pixel
box at the top. -/
theorem mkVia_y1_le (v : ViaSpec) (ps px0 py0 : ℚ) (i j : Nat)
    (hs : 0 ≤ v.spacingEff) (hth : 0 < viaPitchY v)
    (hj : j < (viaNumY v ps).toNat) :
    (mkVia v ps px0 py0 i j).y1 ≤ py0 + ps := by
  have hn : 0 < viaNumY v ps := by omega
  have hjz : (j : ℤ) + 1 ≤ viaNumY v ps := by omega
  have hjq : (j : ℚ) + 1 ≤ (viaNumY v ps : ℚ) := by exact_mod_cast hjz
  have hA : (viaNumY v ps : ℚ) * viaPitchY v ≤ ps := viaNumY_mul_le v ps hth
  have harr : viaArrH v ps = (viaNumY v ps : ℚ) * viaPitchY v - v.spacingEff := by
    unfold viaArrH
    rw [if_pos hn]
  have hmul : (j : ℚ) * viaPitchY v ≤ ((viaNumY v ps : ℚ) - 1) * viaPitchY v :=
    mul_le_mul_of_nonneg_right (by linarith) hth.le
  have hthdef : viaPitchY v = v.height + v.spacingEff := rfl
  show py0 + (ps - viaArrH v ps) / 2 + (j : ℚ) * viaPitchY v + v.height ≤ py0 + ps
  rw [harr]
  linarith [hmul, hA, hs]

/-- In exact arithmetic the boundary filter of the via loop never drops a
via: the array is the full num_x by num_y grid. -/
theorem viaRects_eq_grid (v : ViaSpec) (ps px0 py0 : ℚ)
    (hs : 0 ≤ v.spacingEff) (htw : 0 < viaPitchX v) (hth : 0 < viaPitchY v) :
    viaRects v ps px0 py0 =
      (List.range (viaNumX v ps).toNat).flatMap
        (fun i => (List.range (viaNumY v ps).toNat).map (mkVia v ps px0 py0 i)) := by
  unfold viaRects
  apply flatMap_congr_mem
  intro i hi
  rw [List.mem_range] at hi
  have hcongr : ∀ j ∈ List.range (viaNumY v ps).toNat,
      (if (mkVia v ps px0 py0 i j).x1 ≤ px0 + ps ∧
          (mkVia v ps px0 py0 i j).y1 ≤ py0 + ps then
        some (mkVia v ps px0 py0 i j)
      else none) = some (mkVia v ps px0 py0 i j) := by
    intro j hj
    rw [List.mem_range] at hj
    exact if_pos ⟨mkVia_x1_le v ps px0 py0 i j hs htw hi,
      mkVia_y1_le v ps px0 py0 i j hs hth hj⟩
  rw [List.filterMap_congr hcongr]
  have h : (fun j => some (mkVia v ps px0 py0 i j)) = some ∘ mkVia v ps px0 py0 i := rfl
  rw [h, List.filterMap_eq_map]

/-- The via count is num_x times num_y. -/
theorem viaRects_length (v : ViaSpec) (ps px0 py0 : ℚ)
    (hs : 0 ≤ v.spacingEff) (htw : 0 < viaPitchX v) (hth : 0 < viaPitchY v) :
    (viaRects v ps px0 py0).length =
      (viaNumX v ps).toNat * (viaNumY v ps).toNat := by
  rw [viaRects_eq_grid v ps px0 py0 hs htw hth, List.length_flatMap]
  simp only [Function.comp_def, List.length_map, List.length_range]
  rw [List.map_const', List.sum_replicate, smul_eq_mul, List.length_range]

/-- The via rectangles are exactly the grid cells (i, j). -/
theorem mem_viaRects_iff (v : ViaSpec) (ps px0 py0 : ℚ) (r : Rect)
    (hs : 0 ≤ v.spacingEff) (htw : 0 < viaPitchX v) (hth : 0 < viaPitchY v) :
    r ∈ viaRects v ps px0 py0 ↔
      ∃ i < (viaNumX v ps).toNat, ∃ j < (viaNumY v ps).toNat,
        r = mkVia v ps px0 py0 i j := by
  rw [viaRects_eq_grid v ps px0 py0 hs htw hth]
  constructor
  · intro h
    obtain ⟨i, hi, hmem⟩ := List.mem_flatMap.mp h
    obtain ⟨j, hj, hEq⟩ := List.mem_map.mp hmem
    exact ⟨i, List.mem_range.mp hi, j, List.mem_range.mp hj, hEq.symm⟩
  · rintro ⟨i, hi, j, hj, rfl⟩
    exact List.mem_flatMap.mpr ⟨i, List.mem_range.mpr hi,
      List.mem_map.mpr ⟨j, List.mem_range.mpr hj, rfl⟩⟩

/-- Reflecting grid cell (i, j) through the pixel center gives grid cell
(num_x - 1 - i, num_y - 1 - j). -/
theorem reflect_mkVia (v : ViaSpec) (ps px0 py0 : ℚ) (i j : Nat)
    (hi : i < (viaNumX v ps).toNat) (hj : j < (viaNumY v ps).toNat) :
    reflectRect (px0 + ps / 2) (py0 + ps / 2) (mkVia v ps px0 py0 i j) =
      mkVia v ps px0 py0 ((viaNumX v ps).toNat - 1 - i)
        ((viaNumY v ps).toNat - 1 - j) := by
  have hnx : 0 < viaNumX v ps := by omega
  have hny : 0 < viaNumY v ps := by omega
  have harrW : viaArrW v ps =
      (viaNumX v ps : ℚ) * (v.width + v.spacingEff) - v.spacingEff := by
    unfold viaArrW viaPitchX
    rw [if_pos hnx]
  have harrH : viaArrH v ps =
      (viaNumY v ps : ℚ) * (v.height + v.spacingEff) - v.spacingEff := by
    unfold viaArrH viaPitchY
    rw [if_pos hny]
  have htn : ((viaNumX v ps).toNat : ℚ) = (viaNumX v ps : ℚ) := by
    exact_mod_cast Int.toNat_of_nonneg hnx.le
  have htm : ((viaNumY v ps).toNat : ℚ) = (viaNumY v ps : ℚ) := by
    exact_mod_cast Int.toNat_of_nonneg hny.le
  have hcx : (((viaNumX v ps).toNat - 1 - i : ℕ) : ℚ) =
      (viaNumX v ps : ℚ) - 1 - (i : ℚ) := by
    rw [Nat.cast_sub (by omega), Nat.cast_sub (by omega), Nat.cast_one, htn]
  have hcy : (((viaNumY v ps).toNat - 1 - j : ℕ) : ℚ) =
      (viaNumY v ps : ℚ) - 1 - (j : ℚ) := by
    rw [Nat.cast_sub (by omega), Nat.cast_sub (by omega), Nat.cast_one, htm]
  simp only [reflectRect, mkVia, viaPitchX, viaPitchY, Rect.mk.injEq]
  refine ⟨?_, ?_, ?_, ?_, trivial, trivial⟩
  · rw [hcx, harrW]; ring
  · rw [hcy, harrH]; ring
  · rw [hcx, harrW]; ring
  · rw [hcy, harrH]; ring

/-- C3: with nonnegative spacing and positive pitches, the via array of a
gate-passing pixel/layer pair holds exactly
floor(ps / (via_width + spacing)) x floor(ps / (via_height + spacing))
rectangles (spacing defaulting to via_width when unspecified), and the
array is symmetric about the pixel center. -/
theorem c3_via_array (v : ViaSpec) (ps px0 py0 : ℚ)
    (hs : 0 ≤ v.spacingEff) (htw : 0 < v.width + v.spacingEff)
    (hth : 0 < v.height + v.spacingEff) :
    (viaRects v ps px0 py0).length =
      (⌊ps / (v.width + v.spacingEff)⌋.toNat) *
        (⌊ps / (v.height + v.spacingEff)⌋.toNat) ∧
    (∀ r ∈ viaRects v ps px0 py0,
      reflectRect (px0 + ps / 2) (py0 + ps / 2) r ∈ viaRects v ps px0 py0) ∧
    (v.spacing = none → v.spacingEff = v.width) ∧
    (∀ m : MetalSpec, m.min_width ≤ ps → m.min_area ≤ ps ^ 2 →
      (metalPixelEmit m (some v) ps px0 py0).length =
        1 + (⌊ps / (v.width + v.spacingEff)⌋.toNat) *
          (⌊ps / (v.height + v.spacingEff)⌋.toNat)) := by
  rw [show ⌊ps / (v.width + v.spacingEff)⌋ = viaNumX v ps from rfl,
    show ⌊ps / (v.height + v.spacingEff)⌋ = viaNumY v ps from rfl]
  have htw' : 0 < viaPitchX v := htw
  have hth' : 0 < viaPitchY v := hth
  have hlen := viaRects_length v ps px0 py0 hs htw' hth'
  refine ⟨hlen, ?_, ?_, ?_⟩
  · intro r hr
    rw [mem_viaRects_iff v ps px0 py0 r hs htw' hth'] at hr
    obtain ⟨i, hi, j, hj, rfl⟩ := hr
    rw [reflect_mkVia v ps px0 py0 i j hi hj]
    exact (mem_viaRects_iff v ps px0 py0 _ hs htw' hth').mpr
      ⟨(viaNumX v ps).toNat - 1 - i, by omega,
        (viaNumY v ps).toNat - 1 - j, by omega, rfl⟩
  · intro h
    unfold ViaSpec.spacingEff
    rw [h]
    rfl
  · intro m h1 h2
    unfold metalPixelEmit
    rw [if_neg (by push_neg; exact ⟨h1, h2⟩)]
    simp only [List.length_cons]
    rw [hlen]
    omega

/-- Witness for C3 on the sample via layer at pixel size 1. -/
theorem c3_via_array_witness :
    ((0 : ℚ) ≤ sampleVia.spacingEff) ∧
    ((0 : ℚ) < sampleVia.width + sampleVia.spacingEff) ∧
    ((0 : ℚ) < sampleVia.height + sampleVia.spacingEff) ∧
    (viaRects sampleVia 1 0 0).length =
      (⌊(1 : ℚ) / (sampleVia.width + sampleVia.spacingEff)⌋.toNat) *
        (⌊(1 : ℚ) / (sampleVia.height + sampleVia.spacingEff)⌋.toNat) :=
  have hs : (0 : ℚ) ≤ sampleVia.spacingEff := by
    norm_num [ViaSpec.spacingEff, sampleVia]
  have htw : (0 : ℚ) < sampleVia.width + sampleVia.spacingEff := by
    norm_num [ViaSpec.spacingEff, sampleVia]
  have hth : (0 : ℚ) < sampleVia.height + sampleVia.spacingEff := by
    norm_num [ViaSpec.spacingEff, sampleVia]
  ⟨hs, htw, hth, (c3_via_array sampleVia 1 0 0 hs htw hth).1⟩

end LogoGen
